import Mathlib

/-!
Verification development for the iotacoin secp256k1 engine.

The Rust sources under verification are:
  * `src/curve.rs`            — toy integer-coordinate Weierstrass curve model;
  * `src/lib.rs`              — the error enumeration;
  * `src/secp256k1/field.rs`  — `FieldElement` arithmetic modulo the secp256k1 prime;
  * `src/secp256k1/crypto.rs` — `PublicKey` / `PrivateKey`, deterministic nonce
    derivation (`deterministic_k`) and signature creation (`create_signature`).

Machine integers (`BigUint`, `isize`) are embedded as `Nat` / `Int`.  Code of the
repository that is not among the provided sources (the secp256k1 point module,
`signature.rs`, `utils.rs`, and the fixed constants `N` and `G`) is modelled from
the specification; each such definition carries a doc comment starting with
`Modelled from the spec:`.
-/

set_option maxRecDepth 4096

/-- The secp256k1 field prime, parsed in `field.rs` from the hex constant
`PRIME_IN_HEX` (its doc comment states it equals 2^256 - 2^32 - 977). -/
def P : Nat := 0xfffffffffffffffffffffffffffffffffffffffffffffffffffffffefffffc2f

/-- Modelled from the spec: the secp256k1 group order `N`, the fixed constant
defined in the (missing) `secp256k1` module and used by `crypto.rs`. -/
def N : Nat := 0xfffffffffffffffffffffffffffffffebaaedce6af48a03bbfd25e8cd0364141

/-- Fuel-driven square-and-multiply; `modpowAux fuel b e m acc` computes
`acc * b^e % m` provided `e < 2^fuel` and the inputs are reduced. -/
def modpowAux : Nat → Nat → Nat → Nat → Nat → Nat
  | 0, _, _, _, acc => acc
  | fuel + 1, b, e, m, acc =>
    if e = 0 then acc
    else modpowAux fuel (b * b % m) (e / 2) m (if e % 2 = 1 then acc * b % m else acc)

/-- Embedding of `BigUint::modpow(exp, modulus)`: modular exponentiation
(`b ^ e % m`), written so that it evaluates in logarithmically many steps. -/
def modpow (b e m : Nat) : Nat := modpowAux e (b % m) e m (1 % m)

/-- `FieldElement(BigUint)` from `field.rs`: a wrapper around a non-negative
arbitrary-precision integer; derived equality compares the raw integers. -/
structure FieldElement where
  val : Nat
deriving DecidableEq

/-- `FieldElement::new`: reduce the argument modulo the prime. -/
def FieldElement.new (number : Nat) : FieldElement := ⟨number % P⟩

/-- `FieldElement::add_inv`: `PRIME - self.0`, stored without further reduction. -/
def FieldElement.add_inv (e : FieldElement) : FieldElement := ⟨P - e.val⟩

/-- `FieldElement::mul_inv`: Fermat inverse `self.pow(PRIME - 2)`. -/
def FieldElement.mul_inv (e : FieldElement) : FieldElement := ⟨modpow e.val (P - 2) P⟩

/-- `Pow for &FieldElement`: a non-negative exponent is used as is; a negative
exponent is reduced with `mod_floor` modulo `PRIME - 1`; then `modpow`. -/
def FieldElement.pow (e : FieldElement) (exp : Int) : FieldElement :=
  let exponent : Nat := if 0 ≤ exp then exp.toNat else (exp.emod ((P : Int) - 1)).toNat
  ⟨modpow e.val exponent P⟩

/-- `Add for &FieldElement`: the Rust body is `&self.0 + &rhs.0 % &*PRIME`,
which by precedence groups as `self.0 + (rhs.0 % PRIME)`; the sum itself is
stored without reduction. -/
def FieldElement.add (a b : FieldElement) : FieldElement := ⟨a.val + b.val % P⟩

/-- `Sub for &FieldElement`: `self.add(&rhs.add_inv())`. -/
def FieldElement.sub (a b : FieldElement) : FieldElement := a.add b.add_inv

/-- `Mul for &FieldElement`: `(&self.0 * &rhs.0) % &*PRIME`. -/
def FieldElement.mul (a b : FieldElement) : FieldElement := ⟨a.val * b.val % P⟩

/-- `Div for &FieldElement`: `self.mul(&rhs.mul_inv())`. -/
def FieldElement.div (a b : FieldElement) : FieldElement := a.mul b.mul_inv

instance {ε α : Type} [DecidableEq ε] [DecidableEq α] : DecidableEq (Except ε α) := fun x y =>
  match x, y with
  | .ok a, .ok b => if h : a = b then .isTrue (by rw [h]) else .isFalse (by simp [h])
  | .error a, .error b => if h : a = b then .isTrue (by rw [h]) else .isFalse (by simp [h])
  | .ok _, .error _ => .isFalse (by simp)
  | .error _, .ok _ => .isFalse (by simp)

/-- The error enumeration of `lib.rs`, together with the two variants that
`curve.rs` constructs (`PointNotInTheCurve(x, y)` and
`PointsNotInTheSameCurve`, declared in the crate's error type). -/
inductive Error where
  | Custom (msg : String)
  | PointNotOnTheCurve
  | OverflowPadding
  | InvalidDigestLength (got : Nat)
  | InvalidSecBytesLength (got : Nat)
  | PointNotInTheCurve (x y : Int)
  | PointsNotInTheSameCurve
deriving DecidableEq

namespace Curve

/-- `EllipticCurve { a: isize, b: isize }` from `curve.rs`. -/
structure EllipticCurve where
  a : Int
  b : Int
deriving DecidableEq

/-- `EllipticCurve::contains`: `y * y == (x * x * x) + self.a * x + self.b`. -/
def EllipticCurve.contains (c : EllipticCurve) (x y : Int) : Prop :=
  y * y = x * x * x + c.a * x + c.b

instance (c : EllipticCurve) (x y : Int) : Decidable (c.contains x y) := by
  unfold EllipticCurve.contains
  infer_instance

/-- `Point` from `curve.rs`: the identity (`AtInfinity`) or a normal point
carrying its coordinates and curve. -/
inductive Point where
  | atInfinity
  | normal (x y : Int) (curve : EllipticCurve)
deriving DecidableEq

/-- `Point::new`: validate the curve equation, reporting
`PointNotInTheCurve` on failure. -/
def Point.new (x y : Int) (curve : EllipticCurve) : Except Error Point :=
  if curve.contains x y then .ok (.normal x y curve) else .error (.PointNotInTheCurve x y)

/-- `Point::curve`: the associated curve of a normal point. -/
def Point.curveOf : Point → Option EllipticCurve
  | .atInfinity => none
  | .normal _ _ c => some c

/-- `Point::same_curve`: both curves equal, or at least one point is at
infinity. -/
def Point.sameCurve (p q : Point) : Prop :=
  match p.curveOf, q.curveOf with
  | some c1, some c2 => c1 = c2
  | _, _ => True

instance (p q : Point) : Decidable (p.sameCurve q) := by
  unfold Point.sameCurve
  rcases p.curveOf <;> rcases q.curveOf <;> simp <;> infer_instance

/-- `Add for Point` from `curve.rs`.  Slopes are computed with `isize`
division, i.e. integer division truncating toward zero (`Int.tdiv`). -/
def Point.add (p q : Point) : Except Error Point :=
  if ¬ p.sameCurve q then .error .PointsNotInTheSameCurve
  else
    match p, q with
    | .atInfinity, _ => .ok q
    | _, .atInfinity => .ok p
    | .normal x1 y1 c, .normal x2 y2 _ =>
      if x1 = x2 then
        if y1 = y2 then
          if y1 = 0 then .ok .atInfinity
          else
            let slope := Int.tdiv (3 * x1 * x1 + c.a) (2 * y1)
            let x3 := slope * slope - 2 * x1
            let y3 := slope * (x1 - x3) - y1
            Point.new x3 y3 c
        else .ok .atInfinity
      else
        let slope := Int.tdiv (y2 - y1) (x2 - x1)
        let x3 := slope * slope - x1 - x2
        let y3 := slope * (x1 - x3) - y1
        Point.new x3 y3 c

/-- A valid toy point on curve `c`: either the identity, or a normal point
whose curve is `c` and whose coordinates satisfy the curve equation. -/
def validOn (c : EllipticCurve) : Point → Prop
  | .atInfinity => True
  | .normal x y cc => cc = c ∧ c.contains x y

instance (c : EllipticCurve) (p : Point) : Decidable (validOn c p) := by
  rcases p <;> unfold validOn <;> infer_instance

/-- Points of the rational-arithmetic reference model of the group law. -/
inductive RatPoint where
  | atInfinity
  | normal (x y : ℚ)
deriving DecidableEq

/-- The curve equation over the rationals. -/
def ratContains (a b x y : ℚ) : Prop := y * y = x * x * x + a * x + b

instance (a b x y : ℚ) : Decidable (ratContains a b x y) := by
  unfold ratContains
  infer_instance

/-- The group law of spec §4.2/§4.5 computed with exact rational arithmetic:
identical case analysis to `Point.add` (including the final membership
revalidation, `none` standing for the revalidation error) but with exact
field division in place of truncating integer division. -/
def ratAdd (a b : ℚ) : RatPoint → RatPoint → Option RatPoint
  | .atInfinity, q => some q
  | p, .atInfinity => some p
  | .normal x1 y1, .normal x2 y2 =>
    if x1 = x2 then
      if y1 = y2 then
        if y1 = 0 then some .atInfinity
        else
          let slope := (3 * x1 * x1 + a) / (2 * y1)
          let x3 := slope * slope - 2 * x1
          let y3 := slope * (x1 - x3) - y1
          if ratContains a b x3 y3 then some (.normal x3 y3) else none
      else some .atInfinity
    else
      let slope := (y2 - y1) / (x2 - x1)
      let x3 := slope * slope - x1 - x2
      let y3 := slope * (x1 - x3) - y1
      if ratContains a b x3 y3 then some (.normal x3 y3) else none

/-- View a toy point inside the rational model. -/
def Point.toRat : Point → RatPoint
  | .atInfinity => .atInfinity
  | .normal x y _ => .normal (x : ℚ) (y : ℚ)

/-- View a toy addition result inside the rational model (`none` = error). -/
def exceptToRat : Except Error Point → Option RatPoint
  | .ok p => some p.toRat
  | .error _ => none

/-- Both slope divisions performed by `Point.add` on this pair of arguments
are exact (divisor divides dividend). -/
def exactSlopes : Point → Point → Prop
  | .normal x1 y1 c, .normal x2 y2 _ =>
    if x1 = x2 then
      (y1 = y2 → y1 ≠ 0 → (2 * y1) ∣ (3 * x1 * x1 + c.a))
    else (x2 - x1) ∣ (y2 - y1)
  | _, _ => True

instance (p q : Point) : Decidable (exactSlopes p q) := by
  rcases p <;> rcases q <;> unfold exactSlopes <;> infer_instance

/-- The witness curve `y² = x³ + 5x + 7` used by the repository's own tests. -/
def cW : EllipticCurve := ⟨5, 7⟩

/-- A valid point on `cW` whose chord slope to `qW` is an exact quotient. -/
def pW : Point := .normal (-1) (-1) cW

/-- A second valid point on `cW`. -/
def qW : Point := .normal 2 5 cW

end Curve

/-- `BigUint::from_bytes_be`: big-endian byte interpretation. -/
def fromBytesBE (bytes : List Nat) : Nat := bytes.foldl (fun acc b => acc * 256 + b) 0

/-- `BigUint::from_bytes_le`: little-endian byte interpretation. -/
def fromBytesLE (bytes : List Nat) : Nat := fromBytesBE bytes.reverse

/-- Helper for `natToBytesBE`, recursing on fuel. -/
def natToBytesBEAux : Nat → Nat → List Nat
  | 0, _ => []
  | fuel + 1, n => if n = 0 then [] else natToBytesBEAux fuel (n / 256) ++ [n % 256]

/-- `BigUint::to_bytes_be`: minimal big-endian encoding, `[0]` for zero. -/
def natToBytesBE (n : Nat) : List Nat :=
  if n = 0 then [0] else natToBytesBEAux n n

/-- Modelled from the spec: `prepend_padding` from the missing `utils.rs` —
pad short encodings with leading `pad` bytes to `width` and fail with the
overflow condition if the natural encoding exceeds `width` bytes. -/
def prepend_padding (bytes : List Nat) (width : Nat) (pad : Nat) : Except Error (List Nat) :=
  if width < bytes.length then .error .OverflowPadding
  else .ok (List.replicate (width - bytes.length) pad ++ bytes)

/-- Modelled from the spec: `Signature` from the missing `signature.rs` — an
ordered pair `(r, s)`; `Signature::new` stores the two components. -/
structure Signature where
  r : Nat
  s : Nat
deriving DecidableEq

/-- Outcome of running embedded Rust code: `ok` / `fail` mirror `Result`;
`panicked` models an uncatchable fault (a failing `unwrap`); `diverged` is the
fuel-exhaustion artifact of embedding the unbounded candidate loop. -/
inductive RunResult (α : Type) where
  | ok (a : α)
  | fail (e : Error)
  | panicked
  | diverged
deriving DecidableEq

/-- Whether an outcome is the uncatchable-fault (panic) outcome. -/
def RunResult.isPanic {α : Type} : RunResult α → Bool
  | .panicked => true
  | _ => false

/-- The HMAC-SHA256 collaborator, `(key, message) → 32-byte digest`; the spec
(§6) treats it as an opaque external primitive, so the signing embedding is
parameterized over it.  Construction with a 32-byte key never fails (the Rust
code unwraps `new_varkey`), so it is a total function. -/
def HmacFun : Type := List Nat → List Nat → List Nat

/-- The candidate loop at the end of `deterministic_k`:
`v = HMAC(k, v)`; return `int(v)` if it lies in `[1, N)`; otherwise
`k = HMAC(k, v ++ [0x00])`, `v = HMAC(k, v)` and repeat. -/
def deterministicKLoop (hmac : HmacFun) (k v : List Nat) : Nat → RunResult Nat
  | 0 => .diverged
  | fuel + 1 =>
    let v1 := hmac k v
    let candidate := fromBytesBE v1
    if 1 ≤ candidate ∧ candidate < N then .ok candidate
    else
      let k1 := hmac k (v1 ++ [0x00])
      let v2 := hmac k1 v1
      deterministicKLoop hmac k1 v2 fuel

/-- The sequence of successive candidate integers the loop would examine
(not stopping at the first in-range one), `fuel` entries long. -/
def candStream (hmac : HmacFun) (k v : List Nat) : Nat → List Nat
  | 0 => []
  | fuel + 1 =>
    let v1 := hmac k v
    let candidate := fromBytesBE v1
    let k1 := hmac k (v1 ++ [0x00])
    let v2 := hmac k1 v1
    candidate :: candStream hmac k1 v2 fuel

/-- The setup phase of `deterministic_k` (everything before the loop): the
dead reduction of `z`, the padding of the secret to 32 bytes, and the four
keyed-hash rounds deriving the loop's initial `k` and `v`. -/
def dkSetup (hmac : HmacFun) (secret : Nat) (digest : List Nat) :
    Except Error (List Nat × List Nat) :=
  let z0 := fromBytesBE digest
  let _z := if z0 > N then z0 - N else z0
  match prepend_padding (natToBytesBE secret) 32 0 with
  | .error e => .error e
  | .ok secretBytes =>
    let k0 := List.replicate 32 0x00
    let v0 := List.replicate 32 0x01
    let k1 := hmac k0 (v0 ++ [0x00] ++ secretBytes ++ digest)
    let v1 := hmac k1 v0
    let k2 := hmac k1 (v1 ++ [0x01] ++ secretBytes ++ digest)
    let v2 := hmac k2 v1
    .ok (k2, v2)

/-- `PrivateKey::deterministic_k` from `crypto.rs`: RFC 6979-style nonce
derivation from the private scalar and the digest alone. -/
def deterministic_k (hmac : HmacFun) (secret : Nat) (digest : List Nat) (fuel : Nat) :
    RunResult Nat :=
  match dkSetup hmac secret digest with
  | .error e => .fail e
  | .ok (k, v) => deterministicKLoop hmac k v fuel

/-- The candidate sequence `deterministic_k` examines. -/
def dkCandidates (hmac : HmacFun) (secret : Nat) (digest : List Nat) (fuel : Nat) : List Nat :=
  match dkSetup hmac secret digest with
  | .error _ => []
  | .ok (k, v) => candStream hmac k v fuel

/-- `PrivateKey::create_signature` from `crypto.rs`, parameterized over the
HMAC collaborator and over `xOfKG k` = the x-coordinate of `k · G` as a plain
integer (`none` when `k · G` is the identity, in which case the Rust
`.x().unwrap()` panics). -/
def create_signature (hmac : HmacFun) (xOfKG : Nat → Option Nat) (secret : Nat)
    (digest : List Nat) (fuel : Nat) : RunResult Signature :=
  if digest.length ≠ 32 then .fail (.InvalidDigestLength digest.length)
  else
    match deterministic_k hmac secret digest fuel with
    | .ok k =>
      match xOfKG k with
      | none => .panicked
      | some r =>
        let kInv := modpow k (N - 2) N
        let z := fromBytesBE digest
        let s0 := (z + r * secret) * kInv % N
        let s := if s0 > N / 2 then N - s0 else s0
        .ok ⟨r, s⟩
    | .fail e => .fail e
    | .panicked => .panicked
    | .diverged => .diverged

/-- Modelled from the spec: scalar multiplication by the base point `G` in the
missing secp256k1 point module.  Per the spec, `N` is "the number of points
generated by repeatedly adding the fixed base point to itself", i.e. `G`
generates a cyclic group of order `N`; the point `k · G` is represented by the
residue `k mod N`, with residue `0` as the identity. -/
def scalarMulG (k : Nat) : Nat := k % N

/-- Modelled from the spec: the x-coordinate accessor composed with scalar
multiplication, `(k · G).x()` — `none` exactly when `k · G` is the identity
(`k ≡ 0 mod N`).  The concrete coordinate value of a non-identity point is not
determined by the spec; it is represented here by the residue itself (no
claim settled below depends on that value). -/
def xOfKGModel (k : Nat) : Option Nat :=
  if scalarMulG k = 0 then none else some (scalarMulG k)

/-- `PrivateKey` from `crypto.rs`: the secret scalar, stored exactly as given,
together with the derived public point (represented in the cyclic-group model
of the missing point module). -/
structure PrivateKey where
  secret : Nat
  pubRep : Nat
deriving DecidableEq

/-- `PrivateKey::new`: store the scalar as given and derive `G * secret`;
no range validation is performed. -/
def PrivateKey.new (secret : Nat) : PrivateKey := ⟨secret, scalarMulG secret⟩

/-- `PrivateKey::from_bytes_be`: big-endian decode, then `new`. -/
def PrivateKey.from_bytes_be (bytes : List Nat) : PrivateKey :=
  PrivateKey.new (fromBytesBE bytes)

/-- `PrivateKey::from_bytes_le`: little-endian decode, then `new`. -/
def PrivateKey.from_bytes_le (bytes : List Nat) : PrivateKey :=
  PrivateKey.new (fromBytesLE bytes)

/-- Modelled from the spec: the curve coefficients `(a, b) = (0, 7)` of the
production secp256k1 curve (`y² = x³ + 7`), fixed constants of the missing
secp256k1 module. -/
def curveA : Nat := 0

/-- Modelled from the spec: see `curveA`. -/
def curveB : Nat := 7

/-- A normal point of the production curve: a pair of field elements.  (The
missing point module also has an identity variant; `PublicKey::new` only ever
constructs normal points, so only this variant is needed here.) -/
structure PubPoint where
  x : FieldElement
  y : FieldElement
deriving DecidableEq

/-- Modelled from the spec: the curve-equation check of the missing secp256k1
`Point::new` — a normal point must satisfy `y² = x³ + a·x + b` in the field
(all arithmetic modulo `P`), and violation is the point-not-on-curve error. -/
def secpPointNew (x y : FieldElement) : Except Error PubPoint :=
  if y.val * y.val % P = (x.val * x.val % P * x.val + curveA * x.val + curveB) % P
  then .ok ⟨x, y⟩ else .error .PointNotOnTheCurve

/-- `PublicKey` from `crypto.rs`: wraps the elliptic-curve point. -/
structure PublicKey where
  ec_point : PubPoint
deriving DecidableEq

/-- `PublicKey::new` from `crypto.rs`: reduce both coordinates into field
elements with `FieldElement::new`, then validate them as a curve point. -/
def PublicKey.new (x y : Nat) : Except Error PublicKey :=
  match secpPointNew (FieldElement.new x) (FieldElement.new y) with
  | .ok p => .ok ⟨p⟩
  | .error e => .error e

/-- Modelled from the spec: the x-coordinate of the fixed base point `G` of
the secp256k1 curve. -/
def Gx : Nat := 0x79be667ef9dcbbac55a06295ce870b07029bfcdb2dce28d959f2815b16f81798

/-- Modelled from the spec: the y-coordinate of the fixed base point `G`. -/
def Gy : Nat := 0x483ada7726a3c4655da4fbfc0e1108a8fd17b448a68554199c47d08ffb10d4b8

/-- A constant test HMAC collaborator used by concrete witnesses: it returns
the 32-byte block whose big-endian value is 1. -/
def hmacOne : HmacFun := fun _ _ => List.replicate 31 0 ++ [1]

/-- A concrete 32-byte digest (all zeros) used by concrete witnesses. -/
def digest32 : List Nat := List.replicate 32 0

/-- The loop's in-range test as a Boolean predicate on candidates. -/
def inRangeB (c : Nat) : Bool := decide (1 ≤ c ∧ c < N)

theorem deterministicKLoop_ok_range (hm : HmacFun) :
    ∀ (fuel : Nat) (k v : List Nat) (c : Nat),
      deterministicKLoop hm k v fuel = .ok c → 1 ≤ c ∧ c < N := by
  intro fuel
  induction fuel with
  | zero => intro k v c h; simp [deterministicKLoop] at h
  | succ n ih =>
    intro k v c h
    simp only [deterministicKLoop] at h
    split at h
    · rename_i hc
      cases h
      exact hc
    · exact ih _ _ _ h

theorem deterministicKLoop_no_fail (hm : HmacFun) :
    ∀ (fuel : Nat) (k v : List Nat) (e : Error),
      deterministicKLoop hm k v fuel ≠ .fail e := by
  intro fuel
  induction fuel with
  | zero => intro k v e h; simp [deterministicKLoop] at h
  | succ n ih =>
    intro k v e h
    simp only [deterministicKLoop] at h
    split at h
    · cases h
    · exact ih _ _ _ h

theorem deterministicKLoop_no_panic (hm : HmacFun) :
    ∀ (fuel : Nat) (k v : List Nat),
      deterministicKLoop hm k v fuel ≠ .panicked := by
  intro fuel
  induction fuel with
  | zero => intro k v h; simp [deterministicKLoop] at h
  | succ n ih =>
    intro k v h
    simp only [deterministicKLoop] at h
    split at h
    · cases h
    · exact ih _ _ h

theorem deterministicKLoop_ok_find (hm : HmacFun) :
    ∀ (fuel : Nat) (k v : List Nat) (c : Nat),
      deterministicKLoop hm k v fuel = .ok c →
      (candStream hm k v fuel).find? inRangeB = some c := by
  intro fuel
  induction fuel with
  | zero => intro k v c h; simp [deterministicKLoop] at h
  | succ n ih =>
    intro k v c h
    simp only [deterministicKLoop] at h
    simp only [candStream]
    split at h
    · rename_i hc
      cases h
      rw [List.find?_cons_of_pos _ (by simpa [inRangeB] using hc)]
    · rename_i hc
      rw [List.find?_cons_of_neg _ (by simpa [inRangeB] using hc)]
      exact ih _ _ _ h

theorem deterministic_k_ok_range (hm : HmacFun) (secret : Nat) (digest : List Nat)
    (fuel : Nat) (k : Nat) (h : deterministic_k hm secret digest fuel = .ok k) :
    1 ≤ k ∧ k < N := by
  unfold deterministic_k at h
  split at h
  · cases h
  · exact deterministicKLoop_ok_range hm _ _ _ _ h

theorem deterministic_k_fail_overflow (hm : HmacFun) (secret : Nat) (digest : List Nat)
    (fuel : Nat) (e : Error) (h : deterministic_k hm secret digest fuel = .fail e) :
    e = .OverflowPadding := by
  unfold deterministic_k at h
  split at h
  · rename_i e1 hsetup
    cases h
    unfold dkSetup at hsetup
    split at hsetup
    · rename_i hpad
      unfold prepend_padding at hpad
      split at hpad
      · cases hpad
        cases hsetup
        rfl
      · cases hpad
    · cases hsetup
  · exact absurd h (deterministicKLoop_no_fail hm _ _ _ _)

theorem deterministic_k_no_panic (hm : HmacFun) (secret : Nat) (digest : List Nat)
    (fuel : Nat) : deterministic_k hm secret digest fuel ≠ .panicked := by
  unfold deterministic_k
  split
  · intro h; cases h
  · exact deterministicKLoop_no_panic hm _ _ _

/-- C3: low-s normalization — whenever `create_signature` succeeds (for any
private scalar, any digest, any HMAC collaborator and any x-coordinate
function), the returned signature's `s` component satisfies `s ≤ N / 2`. -/
theorem c3_low_s (hm : HmacFun) (xG : Nat → Option Nat) (secret : Nat)
    (digest : List Nat) (fuel : Nat) (sig : Signature)
    (h : create_signature hm xG secret digest fuel = .ok sig) :
    sig.s ≤ N / 2 := by
  unfold create_signature at h
  split at h
  · cases h
  · split at h
    · rename_i k hk
      split at h
      · cases h
      · rename_i r hr
        simp only at h
        cases h
        simp only
        have hlt : (fromBytesBE digest + r * secret) * modpow k (N - 2) N % N < N :=
          Nat.mod_lt _ (by decide)
        split
        · omega
        · omega
    · cases h
    · cases h
    · cases h

/-- C3 witness: a concrete successful signing run. -/
theorem c3_low_s_witness : (⟨1, 1⟩ : Signature).s ≤ N / 2 :=
  c3_low_s hmacOne xOfKGModel 1 digest32 1 ⟨1, 1⟩ (by decide)

/-- C4: determinism of signing — two invocations of `create_signature` (and of
`deterministic_k`) on equal private scalars and equal digests return identical
results; the embedding takes no randomness source, the nonce is a function of
the scalar and the digest alone. -/
theorem c4_signing_deterministic (hm : HmacFun) (xG : Nat → Option Nat)
    (secret1 secret2 : Nat) (digest1 digest2 : List Nat) (fuel : Nat)
    (hsec : secret1 = secret2) (hdig : digest1 = digest2) :
    create_signature hm xG secret1 digest1 fuel = create_signature hm xG secret2 digest2 fuel ∧
    deterministic_k hm secret1 digest1 fuel = deterministic_k hm secret2 digest2 fuel := by
  rw [hsec, hdig]
  exact ⟨rfl, rfl⟩

/-- C4 witness: the determinism theorem applied at concrete inputs. -/
theorem c4_signing_deterministic_witness :
    create_signature hmacOne xOfKGModel 1 digest32 1 =
      create_signature hmacOne xOfKGModel 1 digest32 1 ∧
    deterministic_k hmacOne 1 digest32 1 = deterministic_k hmacOne 1 digest32 1 :=
  c4_signing_deterministic hmacOne xOfKGModel 1 1 digest32 digest32 1 rfl rfl

/-- C5: `create_signature` fails with `InvalidDigestLength` exactly when the
digest is not 32 bytes long; on a 32-byte digest that error never occurs. -/
theorem c5_digest_length_iff (hm : HmacFun) (xG : Nat → Option Nat) (secret : Nat)
    (digest : List Nat) (fuel : Nat) :
    (∃ m, create_signature hm xG secret digest fuel = .fail (.InvalidDigestLength m)) ↔
      digest.length ≠ 32 := by
  constructor
  · rintro ⟨m, h⟩
    intro hlen
    unfold create_signature at h
    rw [if_neg (by simpa using hlen)] at h
    cases hdk : deterministic_k hm secret digest fuel with
    | ok k =>
      rw [hdk] at h
      simp only at h
      rcases hx : xG k with _ | r <;> rw [hx] at h <;> simp only at h <;> cases h
    | fail e =>
      rw [hdk] at h
      simp only at h
      cases h
      exact absurd (deterministic_k_fail_overflow hm secret digest fuel _ hdk) (by simp)
    | panicked => rw [hdk] at h; simp only at h; cases h
    | diverged => rw [hdk] at h; simp only at h; cases h
  · intro hlen
    refine ⟨digest.length, ?_⟩
    unfold create_signature
    rw [if_pos hlen]

/-- C6: every nonce `deterministic_k` returns lies in `[1, N)`, and it is the
first candidate of the generated candidate stream whose big-endian integer
value falls in that range. -/
theorem c6_nonce_range_first (hm : HmacFun) (secret : Nat) (digest : List Nat)
    (fuel : Nat) (k : Nat) (h : deterministic_k hm secret digest fuel = .ok k) :
    (1 ≤ k ∧ k < N) ∧ (dkCandidates hm secret digest fuel).find? inRangeB = some k := by
  refine ⟨deterministic_k_ok_range hm secret digest fuel k h, ?_⟩
  unfold deterministic_k at h
  unfold dkCandidates
  split at h
  · cases h
  · exact deterministicKLoop_ok_find hm _ _ _ _ h

/-- C6 witness: a concrete run returning the nonce 1. -/
theorem c6_nonce_range_first_witness :
    ((1 : Nat) ≤ 1 ∧ 1 < N) ∧
      (dkCandidates hmacOne 1 digest32 1).find? inRangeB = some 1 :=
  c6_nonce_range_first hmacOne 1 digest32 1 1 (by decide)

/-- C7 counterexample: `PrivateKey::new(0)` is accepted and stores the scalar
0, and `PrivateKey::new(N)` stores the scalar `N` — both outside `[1, N)`. -/
theorem c7_private_key_counterexample :
    (PrivateKey.new 0).secret = 0 ∧ ¬ (1 ≤ (PrivateKey.new 0).secret) ∧
    (PrivateKey.new N).secret = N ∧ ¬ ((PrivateKey.new N).secret < N) := by
  refine ⟨rfl, by simp [PrivateKey.new], rfl, by simp [PrivateKey.new]⟩

/-- C7 (amended): `PrivateKey` construction performs no range validation — the
scalar is stored exactly as given by `new`, `from_bytes_be` and
`from_bytes_le`, so 0 and values `≥ N` are accepted. -/
theorem c7_no_scalar_validation (s : Nat) (bytes1 bytes2 : List Nat) :
    (PrivateKey.new s).secret = s ∧
    (PrivateKey.from_bytes_be bytes1).secret = fromBytesBE bytes1 ∧
    (PrivateKey.from_bytes_le bytes2).secret = fromBytesLE bytes2 :=
  ⟨rfl, rfl, rfl⟩

/-- C9: with the spec-modelled cyclic group of order `N` for `k · G`, signing
never panics — every outcome is a signature or an explicit error (or the
fuel-exhaustion artifact of the unbounded candidate loop): the x-coordinate
extraction never hits the identity because the nonce satisfies `1 ≤ k < N`,
and the keyed-hash collaborator with its fixed 32-byte keys is total. -/
theorem c9_no_panic (hm : HmacFun) (secret : Nat) (digest : List Nat) (fuel : Nat) :
    (create_signature hm xOfKGModel secret digest fuel).isPanic = false := by
  unfold create_signature
  split
  · rfl
  · cases hdk : deterministic_k hm secret digest fuel with
    | ok k =>
      obtain ⟨h1, h2⟩ := deterministic_k_ok_range hm secret digest fuel k hdk
      have hx : xOfKGModel k = some k := by
        unfold xOfKGModel scalarMulG
        rw [Nat.mod_eq_of_lt h2]
        rw [if_neg (by omega)]
      simp only
      rw [hx]
      rfl
    | fail e => rfl
    | panicked => exact absurd hdk (deterministic_k_no_panic hm secret digest fuel)
    | diverged => rfl

/-- C10: `PublicKey::new` reduces both coordinates modulo `P` before the curve
check — the result is unchanged if the inputs are pre-reduced, and on success
the stored coordinates are the reduced values, not the caller's originals. -/
theorem c10_coords_reduced (x y : Nat) :
    PublicKey.new x y = PublicKey.new (x % P) (y % P) ∧
    (∀ pk, PublicKey.new x y = .ok pk →
      pk.ec_point.x.val = x % P ∧ pk.ec_point.y.val = y % P) := by
  constructor
  · unfold PublicKey.new FieldElement.new
    rw [Nat.mod_mod_of_dvd x (dvd_refl P), Nat.mod_mod_of_dvd y (dvd_refl P)]
  · intro pk h
    unfold PublicKey.new at h
    split at h
    · rename_i p hp
      cases h
      unfold secpPointNew FieldElement.new at hp
      split at hp
      · cases hp
        exact ⟨rfl, rfl⟩
      · cases hp
    · cases h

/-- C10 witness: the base point's x-coordinate shifted by `P` (a value `≥ P`)
is accepted, and the stored coordinates are the reduced ones. -/
theorem c10_coords_reduced_witness :
    P ≤ Gx + P ∧ (Gx + P) % P = Gx ∧ Gy % P = Gy ∧
    PublicKey.new (Gx + P) Gy = .ok ⟨⟨⟨Gx⟩, ⟨Gy⟩⟩⟩ ∧
    ((⟨⟨⟨Gx⟩, ⟨Gy⟩⟩⟩ : PublicKey).ec_point.x.val = (Gx + P) % P ∧
     (⟨⟨⟨Gx⟩, ⟨Gy⟩⟩⟩ : PublicKey).ec_point.y.val = Gy % P) :=
  ⟨by decide, by decide, by decide, by decide,
    (c10_coords_reduced (Gx + P) Gy).2 ⟨⟨⟨Gx⟩, ⟨Gy⟩⟩⟩ (by decide)⟩

/-- C1: the canonical-reduction invariant fails — for the canonical operands
`P - 1` and `0` (both in `[0, P)`), `add` returns the raw integer `2P - 2` and
`add_inv` returns the raw integer `P`, both outside `[0, P)` (the Rust
addition `&self.0 + &rhs.0 % &*PRIME` reduces only the right operand). -/
theorem c1_reduction_invariant_broken :
    (FieldElement.add (FieldElement.new (P - 1)) (FieldElement.new (P - 1))).val = 2 * P - 2 ∧
    ¬ ((FieldElement.add (FieldElement.new (P - 1)) (FieldElement.new (P - 1))).val < P) ∧
    (FieldElement.add_inv (FieldElement.new 0)).val = P ∧
    ¬ ((FieldElement.add_inv (FieldElement.new 0)).val < P) ∧
    (FieldElement.sub (FieldElement.new (P - 1)) (FieldElement.new 1)).val = 2 * P - 2 := by
  refine ⟨by decide, by decide, by decide, by decide, by decide⟩

/-- C2: the additive-inverse identity fails — for the nonzero element 1,
`e + add_inv(e)` is the element with raw integer `P`, which is not equal (by
derived integer equality) to the zero element; `add_inv(0)` is the element
with raw integer `P`, not the identity `0`. -/
theorem c2_add_inv_identity_broken :
    (FieldElement.add (FieldElement.new 1) (FieldElement.new 1).add_inv).val = P ∧
    FieldElement.add (FieldElement.new 1) (FieldElement.new 1).add_inv ≠ FieldElement.new 0 ∧
    (FieldElement.new 0).add_inv ≠ FieldElement.new 0 := by
  refine ⟨by decide, by decide, by decide⟩

namespace Curve

theorem intCast_tdiv_of_dvd {n d : Int} (hd : d ≠ 0) (h : d ∣ n) :
    ((n.tdiv d : Int) : ℚ) = (n : ℚ) / (d : ℚ) := by
  obtain ⟨k, rfl⟩ := h
  rw [Int.mul_tdiv_cancel_left _ hd, Int.cast_mul]
  rw [mul_div_cancel_left₀ _ (show (d : ℚ) ≠ 0 by exact_mod_cast hd)]

theorem contains_iff_ratContains (c : EllipticCurve) (x y : Int) :
    c.contains x y ↔ ratContains (c.a : ℚ) (c.b : ℚ) (x : ℚ) (y : ℚ) := by
  unfold EllipticCurve.contains ratContains
  constructor
  · intro h; exact_mod_cast h
  · intro h; exact_mod_cast h

theorem exceptToRat_new (x y : Int) (c : EllipticCurve) :
    exceptToRat (Point.new x y c) =
      if c.contains x y then some (.normal (x : ℚ) (y : ℚ)) else none := by
  unfold Point.new
  by_cases h : c.contains x y
  · rw [if_pos h, if_pos h]; rfl
  · rw [if_neg h, if_neg h]; rfl

theorem add_normal_normal (x1 y1 x2 y2 : Int) (c : EllipticCurve) :
    Point.add (.normal x1 y1 c) (.normal x2 y2 c) =
      if x1 = x2 then
        if y1 = y2 then
          if y1 = 0 then .ok .atInfinity
          else
            let slope := Int.tdiv (3 * x1 * x1 + c.a) (2 * y1)
            let x3 := slope * slope - 2 * x1
            let y3 := slope * (x1 - x3) - y1
            Point.new x3 y3 c
        else .ok .atInfinity
      else
        let slope := Int.tdiv (y2 - y1) (x2 - x1)
        let x3 := slope * slope - x1 - x2
        let y3 := slope * (x1 - x3) - y1
        Point.new x3 y3 c := by
  unfold Point.add
  rw [if_neg (by simp [Point.sameCurve, Point.curveOf])]

/-- C8 counterexample: the valid points `(-1, 1)` and `(2, 5)` of the curve
`y² = x³ + 5x + 7` have chord slope 4/3; truncating integer division makes
`add` disagree with the exact rational group law on this pair. -/
theorem c8_truncation_counterexample :
    validOn cW (.normal (-1) 1 cW) ∧ validOn cW (.normal 2 5 cW) ∧
    exceptToRat (Point.add (.normal (-1) 1 cW) (.normal 2 5 cW)) ≠
      ratAdd (cW.a : ℚ) (cW.b : ℚ)
        (Point.toRat (.normal (-1) 1 cW)) (Point.toRat (.normal 2 5 cW)) := by
  refine ⟨by decide, by decide, ?_⟩
  have hL : exceptToRat (Point.add (.normal (-1) 1 cW) (.normal 2 5 cW)) = none := by decide
  rw [hL]
  simp only [ratAdd, Point.toRat]
  norm_num [ratContains, cW]
  simp

theorem ifContains_cast (c : EllipticCurve) (x3 y3 : Int) (xr yr : ℚ)
    (hx : xr = (x3 : ℚ)) (hy : yr = (y3 : ℚ)) :
    (if c.contains x3 y3 then some (RatPoint.normal (x3 : ℚ) (y3 : ℚ)) else none) =
    (if ratContains (c.a : ℚ) (c.b : ℚ) xr yr then some (.normal xr yr) else none) := by
  subst hx hy
  by_cases h : c.contains x3 y3
  · rw [if_pos h, if_pos ((contains_iff_ratContains c x3 y3).mp h)]
  · rw [if_neg h, if_neg (fun hr => h ((contains_iff_ratContains c x3 y3).mpr hr))]

/-- C8 (amended): whenever every slope division the toy group law performs is
exact — `(x2−x1) ∣ (y2−y1)` in the distinct-x case, `(2y) ∣ (3x²+a)` in the
doubling case — the computed slope equals the exact rational quotient and
`add` agrees with the group law computed with exact rational arithmetic; on
pairs where the division truncates the two disagree. -/
theorem c8_exact_division (c : EllipticCurve) (p q : Point)
    (hp : validOn c p) (hq : validOn c q) (hex : exactSlopes p q) :
    exceptToRat (p.add q) = ratAdd (c.a : ℚ) (c.b : ℚ) p.toRat q.toRat := by
  cases p with
  | atInfinity =>
    cases q with
    | atInfinity =>
      have hL : Point.add Point.atInfinity Point.atInfinity = .ok Point.atInfinity := by
        unfold Point.add
        rw [if_neg (by simp [Point.sameCurve, Point.curveOf])]
      rw [hL]
      rfl
    | normal x2 y2 c2 =>
      have hL : Point.add Point.atInfinity (.normal x2 y2 c2) = .ok (.normal x2 y2 c2) := by
        unfold Point.add
        rw [if_neg (by simp [Point.sameCurve, Point.curveOf])]
      rw [hL]
      rfl
  | normal x1 y1 c1 =>
    obtain ⟨hc1, hcont1⟩ := hp
    subst hc1
    cases q with
    | atInfinity =>
      have hL : Point.add (.normal x1 y1 c1) .atInfinity = .ok (.normal x1 y1 c1) := by
        unfold Point.add
        rw [if_neg (by simp [Point.sameCurve, Point.curveOf])]
      rw [hL]
      rfl
    | normal x2 y2 c2 =>
      obtain ⟨hc2, hcont2⟩ := hq
      subst hc2
      rw [add_normal_normal]
      simp only [Point.toRat, ratAdd]
      by_cases hxx : x1 = x2
      · rw [if_pos hxx, if_pos (show (x1 : ℚ) = (x2 : ℚ) by exact_mod_cast hxx)]
        by_cases hyy : y1 = y2
        · rw [if_pos hyy, if_pos (show (y1 : ℚ) = (y2 : ℚ) by exact_mod_cast hyy)]
          by_cases hy0 : y1 = 0
          · rw [if_pos hy0, if_pos (show (y1 : ℚ) = 0 by exact_mod_cast hy0)]
            rfl
          · rw [if_neg hy0, if_neg (show ¬ (y1 : ℚ) = 0 by exact_mod_cast hy0)]
            have hdvd : (2 * y1) ∣ (3 * x1 * x1 + c2.a) := by
              simp only [exactSlopes] at hex
              rw [if_pos hxx] at hex
              exact hex hyy hy0
            have h2y : (2 * y1 : Int) ≠ 0 := by omega
            have hslope : ((Int.tdiv (3 * x1 * x1 + c2.a) (2 * y1) : Int) : ℚ)
                = (3 * (x1 : ℚ) * (x1 : ℚ) + (c2.a : ℚ)) / (2 * (y1 : ℚ)) := by
              rw [intCast_tdiv_of_dvd h2y hdvd]
              push_cast
              ring_nf
            rw [exceptToRat_new]
            exact ifContains_cast c2 _ _ _ _
              (by rw [← hslope]; push_cast; ring) (by rw [← hslope]; push_cast; ring)
        · rw [if_neg hyy, if_neg (show ¬ (y1 : ℚ) = (y2 : ℚ) by exact_mod_cast hyy)]
          rfl
      · rw [if_neg hxx, if_neg (show ¬ (x1 : ℚ) = (x2 : ℚ) by exact_mod_cast hxx)]
        have hdvd : (x2 - x1) ∣ (y2 - y1) := by
          simp only [exactSlopes] at hex
          rw [if_neg hxx] at hex
          exact hex
        have hd : (x2 - x1 : Int) ≠ 0 := by
          intro h0
          exact hxx (by omega)
        have hslope : ((Int.tdiv (y2 - y1) (x2 - x1) : Int) : ℚ)
            = ((y2 : ℚ) - (y1 : ℚ)) / ((x2 : ℚ) - (x1 : ℚ)) := by
          rw [intCast_tdiv_of_dvd hd hdvd]
          push_cast
          ring_nf
        rw [exceptToRat_new]
        exact ifContains_cast c2 _ _ _ _
          (by rw [← hslope]; push_cast; ring) (by rw [← hslope]; push_cast; ring)

/-- C8 witness: on the repository's own test points `(-1, -1)` and `(2, 5)`
of `y² = x³ + 5x + 7` (exact slope 2) the toy law and the rational law agree. -/
theorem c8_exact_division_witness :
    exceptToRat (Point.add pW qW) = ratAdd (cW.a : ℚ) (cW.b : ℚ) pW.toRat qW.toRat :=
  c8_exact_division cW pW qW (by decide) (by decide) (by decide)

end Curve
